import Mathlib

/-!
Verification of the cc-heatmap CLI (src/cli.mjs): a shallow embedding of the
proof-log parser, the date-range construction, the log-scan loop, the
aggregate-stats pass, and the heatmap cell generation, together with theorems
settling the specification claims.

Modelling conventions:
* Calendar dates are epoch-day numbers (`Int`).  `YYYY-MM-DD` strings compare
  lexicographically exactly as the underlying days compare numerically, so the
  source's string comparisons `toYMD(d) <= todayStr` become `d ≤ today`.
  1970-01-01 (day 0) was a Thursday, so JavaScript's `getDay()` (0 = Sunday)
  becomes `(d + 4) % 7`.
* A log file's text is modelled line by line after `raw.trim()`: each line is
  classified by which of the three anchored regexes it matches
  (`SESSION_HEADER`, `DURATION_LINE`, `WHERE_LINE`); the patterns have
  pairwise-distinct required prefixes (`### `, `- いつ: `, `- どこで: `), so the
  classification is a disjoint sum, with `other` for lines matching none.
* JavaScript objects used as string-keyed dictionaries (`allProjects`,
  `projectsByDate[ds]`) are association lists whose order is the property
  insertion order (the backing store).  `Object.entries` does not enumerate
  that store verbatim: ECMAScript lists array-index keys (the canonical
  decimal form of an integer below 2^32 - 1, e.g. a project labelled "42")
  first in ascending numeric order, then the remaining string keys in
  insertion order; `entriesJS` models this and is applied at the two
  `Object.entries` call sites (cli.mjs:173 and cli.mjs:180).
  `Array.prototype.sort` is stable, modelled by a stable insertion sort.
* The filesystem is `Int → FileStatus` with `absent` (existsSync false),
  `unreadable` (readFileSync throws, caught at cli.mjs:141) and
  `content` (the parsed line list).
-/

namespace CcHeatmap

/-- One parsed session block (cli.mjs:89): header date, duration in minutes
(0 when no duration line was seen), optional project label. -/
structure Session where
  date : String
  durationMin : Nat
  project : Option String
deriving DecidableEq, Repr

/-- A trimmed input line, classified by the regex it matches (cli.mjs:76-78).
`header` carries the captured date (the time pair is never stored),
`duration` the captured minute count, `whereLine` the captured label. -/
inductive Line where
  | header (date : String)
  | duration (n : Nat)
  | whereLine (p : String)
  | other
deriving DecidableEq, Repr

/-- Whether a line matches `SESSION_HEADER`. -/
def Line.isHeader : Line → Bool
  | .header _ => true
  | _ => false

/-- The parser loop of `parseProofLog` (cli.mjs:84-99) with the mutable
`current` made an explicit argument; the final flush (cli.mjs:100) is the
`[]` case. -/
def parseAux (cur : Option Session) : List Line → List Session
  | [] => cur.toList
  | .header d :: ls =>
    (match cur with
     | some c => c :: parseAux (some ⟨d, 0, none⟩) ls
     | none => parseAux (some ⟨d, 0, none⟩) ls)
  | .duration n :: ls =>
    (match cur with
     | some c => parseAux (some { c with durationMin := n }) ls
     | none => parseAux none ls)
  | .whereLine p :: ls =>
    (match cur with
     | some c => parseAux (some { c with project := some p.trim }) ls
     | none => parseAux none ls)
  | .other :: ls => parseAux cur ls

/-- `parseProofLog` (cli.mjs:80-102). -/
def parseProofLog (content : List Line) : List Session :=
  parseAux none content

/-- JavaScript `Date.prototype.getDay` on an epoch-day number: 0 = Sunday. -/
def getDay (d : Int) : Int := (d + 4) % 7

/-- `rangeStart` (cli.mjs:110-114): step back `numWeeks * 7` days from today,
then rewind to the previous Sunday. -/
def rangeStart (today : Int) (numWeeks : Nat) : Int :=
  let s := today - numWeeks * 7
  s - getDay s

/-- `n` consecutive days starting at `start`. -/
def dateRangeAux (start : Int) : Nat → List Int
  | 0 => []
  | n + 1 => start :: dateRangeAux (start + 1) n

/-- The list of dates visited by a `while (toYMD(cursor) <= todayStr)` loop
advancing one day at a time (cli.mjs:155-178). -/
def dateRange (start today : Int) : List Int :=
  dateRangeAux start (today + 1 - start).toNat

/-- `getLevel` (cli.mjs:193-199); `!minutes` on a number is `minutes = 0`
here, since the parser only produces genuine naturals. -/
def getLevel (minutes : Nat) : Nat :=
  if minutes = 0 then 0
  else if minutes < 30 then 1
  else if minutes < 120 then 2
  else if minutes < 240 then 3
  else 4

/-- Status of the log file for one date: `existsSync` false, `readFileSync`
throwing (caught at cli.mjs:141), or readable content. -/
inductive FileStatus where
  | absent
  | unreadable
  | content (lines : List Line)
deriving DecidableEq, Repr

/-- The two accumulator objects of the scan loop (cli.mjs:118-119). -/
structure ScanState where
  minutesByDate : Int → Nat
  projectsByDate : Int → List (String × Nat)

/-- Both maps start empty. -/
def initScan : ScanState :=
  { minutesByDate := fun _ => 0, projectsByDate := fun _ => [] }

/-- `obj[key] = (obj[key] || 0) + v` on an insertion-ordered dictionary:
add into an existing entry in place, else append a new entry at the end. -/
def upsert (l : List (String × Nat)) (k : String) (v : Nat) :
    List (String × Nat) :=
  match l with
  | [] => [(k, v)]
  | (k', v') :: rest =>
    if k' = k then (k', v' + v) :: rest else (k', v') :: upsert rest k v

/-- The body of the per-session loop for one nonzero-duration session
(cli.mjs:135-139): credit the minutes, and the project when present, to the
date of the file being scanned. -/
def addSession (ds : Int) (s : Session) (st : ScanState) : ScanState :=
  let st1 : ScanState :=
    { st with minutesByDate := fun x =>
        if x = ds then st.minutesByDate x + s.durationMin
        else st.minutesByDate x }
  match s.project with
  | some p =>
    { st1 with projectsByDate := fun x =>
        if x = ds then upsert (st1.projectsByDate x) p s.durationMin
        else st1.projectsByDate x }
  | none => st1

/-- The `for (const s of sessions)` loop (cli.mjs:133-140).  Besides the
updated state it returns how many times the zero-duration branch ran
`d = addDays(d, 1)` (cli.mjs:134), which advances the outer loop's date
cursor. -/
def processSessions (ds : Int) (st : ScanState) :
    List Session → ScanState × Nat
  | [] => (st, 0)
  | s :: rest =>
    if s.durationMin = 0 then
      let r := processSessions ds st rest
      (r.1, r.2 + 1)
    else
      processSessions ds (addSession ds s st) rest

/-- The load-logs `while` loop (cli.mjs:125-144): scan the file for date `d`
when readable, then advance the cursor by one day plus one extra day per
zero-duration session encountered (the cli.mjs:134 side effect). -/
def scanLoop (fs : Int → FileStatus) (today : Int) (d : Int)
    (st : ScanState) : ScanState :=
  if _h : d ≤ today then
    match fs d with
    | .absent => scanLoop fs today (d + 1) st
    | .unreadable => scanLoop fs today (d + 1) st
    | .content lines =>
      let r := processSessions d st (parseProofLog lines)
      scanLoop fs today (d + 1 + r.2) r.1
  else st
termination_by (today + 1 - d).toNat
decreasing_by all_goals (simp_wf; omega)

/-- The whole load-logs phase starting from the range start with empty
accumulators. -/
def scanRange (fs : Int → FileStatus) (today start : Int) : ScanState :=
  scanLoop fs today start initScan

/-- The aggregate accumulators of cli.mjs:148-153. -/
structure Stats where
  totalMinutes : Nat
  activeDays : Nat
  longestStreak : Nat
  currentStreak : Nat
  tempStreak : Nat
  allProjects : List (String × Nat)
deriving DecidableEq, Repr

/-- All accumulators start at zero / empty. -/
def initStats : Stats := ⟨0, 0, 0, 0, 0, []⟩

/-- The `for ([proj, min2] of Object.entries(projectsByDate[ds]))` loop
(cli.mjs:172-176): fold the day's enumerated project entries into the
`allProjects` backing store. -/
def upsertAll (l es : List (String × Nat)) : List (String × Nat) :=
  es.foldl (fun acc e => upsert acc e.1 e.2) l

/-- Numeric value of a decimal digit character. -/
def digitVal (c : Char) : Nat := c.toNat - 48

/-- Numeric value of a digit string, most significant digit first. -/
def strNatVal (cs : List Char) : Nat :=
  cs.foldl (fun n c => n * 10 + digitVal c) 0

/-- Whether a property key is an ECMAScript array index: the canonical
decimal form (digits only, no leading zero except "0" itself) of an integer
below 2^32 - 1.  `Object.entries` lists such keys first, in ascending
numeric order. -/
def isArrayIndex (s : String) : Bool :=
  match s.data with
  | [] => false
  | c :: cs =>
    (c :: cs).all Char.isDigit &&
    (decide (c ≠ '0') || cs.isEmpty) &&
    decide (strNatVal (c :: cs) < 4294967295)

/-- The numeric value an array-index key is ordered by. -/
def arrayIndexVal (s : String) : Nat := strNatVal s.data

/-- Stable insertion into a list sorted ascending by array-index value. -/
def insertAscIdx (x : String × Nat) :
    List (String × Nat) → List (String × Nat)
  | [] => [x]
  | y :: ys =>
    if arrayIndexVal y.1 < arrayIndexVal x.1 then y :: insertAscIdx x ys
    else x :: y :: ys

/-- Stable sort ascending by array-index value. -/
def sortAscIdx : List (String × Nat) → List (String × Nat)
  | [] => []
  | x :: xs => insertAscIdx x (sortAscIdx xs)

/-- `Object.entries` enumeration order over a backing store `l`: array-index
keys first in ascending numeric order, then the remaining keys in insertion
order. -/
def entriesJS (l : List (String × Nat)) : List (String × Nat) :=
  sortAscIdx (l.filter fun e => isArrayIndex e.1) ++
    l.filter fun e => !isArrayIndex e.1

/-- One iteration of the aggregate-stats `while` loop (cli.mjs:156-178) at
date `ds`. -/
def statsStep (todayStr : Int) (minutesByDate : Int → Nat)
    (projectsByDate : Int → List (String × Nat)) (st : Stats) (ds : Int) :
    Stats :=
  let min := minutesByDate ds
  let st1 :=
    if 0 < min then
      let temp := st.tempStreak + 1
      { st with
        totalMinutes := st.totalMinutes + min
        activeDays := st.activeDays + 1
        tempStreak := temp
        longestStreak := if st.longestStreak < temp then temp else st.longestStreak
        currentStreak := if ds ≤ todayStr then temp else st.currentStreak }
    else
      if ds < todayStr then { st with tempStreak := 0, currentStreak := 0 }
      else st
  { st1 with
    allProjects := upsertAll st1.allProjects (entriesJS (projectsByDate ds)) }

/-- The whole aggregate-stats pass (cli.mjs:148-178): a chronological fold
over every date of the range. -/
def runStats (today : Int) (m : Int → Nat)
    (p : Int → List (String × Nat)) (start : Int) : Stats :=
  (dateRange start today).foldl (statsStep today m p) initStats

/-- Insert an entry into a minutes-descending list, after every entry with at
least as many minutes: together with `sortByMinutesDesc` this is the unique
stable descending sort that `Array.prototype.sort((a, b) => b[1] - a[1])`
performs (cli.mjs:180). -/
def insertDesc (x : String × Nat) : List (String × Nat) → List (String × Nat)
  | [] => [x]
  | y :: ys => if x.2 < y.2 then y :: insertDesc x ys else x :: y :: ys

/-- Stable sort by minutes, descending. -/
def sortByMinutesDesc : List (String × Nat) → List (String × Nat)
  | [] => []
  | x :: xs => insertDesc x (sortByMinutesDesc xs)

/-- `topProject` (cli.mjs:180): first entry of the stable descending sort of
the `Object.entries` enumeration of the project totals (`undefined`, i.e.
`none`, on an empty dictionary). -/
def topProject (allProjects : List (String × Nat)) :
    Option (String × Nat) :=
  (sortByMinutesDesc (entriesJS allProjects)).head?

/-- The inner `for (let row = 0; row < 7; row++)` loop of the cell generator
(cli.mjs:214-246): seven iterations, each advancing the cursor one day and
emitting a cell — here the date with its activity level — unless the date is
past today. -/
def cellsInner (todayStr : Int) (m : Int → Nat) :
    Int → Nat → List (Int × Nat)
  | _, 0 => []
  | cursor, rows + 1 =>
    if todayStr < cursor then cellsInner todayStr m (cursor + 1) rows
    else (cursor, getLevel (m cursor)) :: cellsInner todayStr m (cursor + 1) rows

/-- The outer cell loop (cli.mjs:213-248): one column of seven rows per
iteration while the cursor has not passed today. -/
def cellsLoop (todayStr : Int) (m : Int → Nat) (weekCursor : Int) :
    List (Int × Nat) :=
  if weekCursor ≤ todayStr then
    cellsInner todayStr m weekCursor 7 ++ cellsLoop todayStr m (weekCursor + 7)
  else []
termination_by (todayStr + 1 - weekCursor).toNat
decreasing_by simp_wf; omega

/-- The full pipeline behind the rendered statistics: scan the log files over
the computed range, then run the aggregate-stats pass. -/
def runPipeline (fs : Int → FileStatus) (today : Int) (numWeeks : Nat) :
    Stats :=
  let rs := rangeStart today numWeeks
  let sc := scanRange fs today rs
  runStats today sc.minutesByDate sc.projectsByDate rs

/-- The rendered grid's day cells over the computed range. -/
def gridCells (fs : Int → FileStatus) (today : Int) (numWeeks : Nat) :
    List (Int × Nat) :=
  cellsLoop today (scanRange fs today (rangeStart today numWeeks)).minutesByDate
    (rangeStart today numWeeks)

/-- The dates captured by the session-header lines of a file, in input
order. -/
def headerDates (ls : List Line) : List String :=
  ls.filterMap fun l =>
    match l with
    | .header d => some d
    | _ => none

/-- Rewrite the date carried by every session-header line. -/
def mapLine (g : String → String) : Line → Line
  | .header d => .header (g d)
  | l => l

/-- Rewrite the header dates inside a file's content. -/
def mapFileDates (g : String → String) : FileStatus → FileStatus
  | .content ls => .content (ls.map (mapLine g))
  | fsd => fsd

/-- Rewrite a session's date field. -/
def mapSessionDate (g : String → String) (s : Session) : Session :=
  { s with date := g s.date }

/-- Point update of a filesystem. -/
def updateFs (fs : Int → FileStatus) (d0 : Int) (v : FileStatus) :
    Int → FileStatus :=
  fun x => if x = d0 then v else fs x

/-- Sum of the sessions' durations. -/
def sumDurations (sess : List Session) : Nat :=
  (sess.map Session.durationMin).sum

/-- The sequence of project labels met by the aggregation pass, in
chronological order (day by day, and within a day in the `Object.entries`
enumeration order of the day's project entries). -/
def projSeq (dates : List Int) (p : Int → List (String × Nat)) :
    List String :=
  (dates.map (fun ds => (entriesJS (p ds)).map Prod.fst)).flatten

/-- Modelled from the spec ("ties broken by first-encountered in aggregation
order"): the distinct labels of a sequence, each at its first occurrence. -/
def firstOccurs (l : List String) : List String :=
  l.foldl (fun acc k => if k ∈ acc then acc else acc ++ [k]) []

end CcHeatmap

namespace CcHeatmap

/-- C7: The activity-level bucketing is a pure function of a day's total
minutes given by the fixed threshold table: 0 minutes maps to level 0, fewer
than 30 (but nonzero) to level 1, fewer than 120 to level 2, fewer than 240 to
level 3, and 240 or more to level 4; boundary-exact, so 29 maps to 1, 30 to 2,
119 to 2, 120 to 3, 239 to 3, and 240 to 4. -/
theorem getLevel_threshold_table (m : Nat) :
    (m = 0 → getLevel m = 0) ∧
    (0 < m → m < 30 → getLevel m = 1) ∧
    (30 ≤ m → m < 120 → getLevel m = 2) ∧
    (120 ≤ m → m < 240 → getLevel m = 3) ∧
    (240 ≤ m → getLevel m = 4) ∧
    getLevel 0 = 0 ∧ getLevel 29 = 1 ∧ getLevel 30 = 2 ∧ getLevel 119 = 2 ∧
    getLevel 120 = 3 ∧ getLevel 239 = 3 ∧ getLevel 240 = 4 := by
  refine ⟨?_, ?_, ?_, ?_, ?_, by decide, by decide, by decide,
    by decide, by decide, by decide, by decide⟩ <;>
    (intros; unfold getLevel; split_ifs <;> omega)

/-- Witness for C7: the theorem applied at the boundary input 29. -/
theorem getLevel_threshold_table_witness : getLevel 29 = 1 :=
  (getLevel_threshold_table 29).2.1 (by norm_num) (by norm_num)

theorem dateRangeAux_head (s : Int) (n : Nat) :
    (dateRangeAux s (n + 1)).head? = some s := rfl

theorem dateRangeAux_getLast (s : Int) (n : Nat) :
    (dateRangeAux s (n + 1)).getLast? = some (s + n) := by
  induction n generalizing s with
  | zero =>
    rw [show dateRangeAux s 1 = [s] from rfl]
    simp
  | succ k ih =>
    rw [show dateRangeAux s (k + 1 + 1) = s :: dateRangeAux (s + 1) (k + 1) from rfl]
    rw [List.getLast?_cons, ih (s + 1)]
    simp only [Option.getD_some]
    congr 1
    push_cast
    ring

theorem rangeStart_eq (today : Int) (N : Nat) :
    rangeStart today N = today - N * 7 - (today - N * 7 + 4) % 7 := by
  simp [rangeStart, getDay]

/-- C6: For every week count `N` and every `today`, the computed range starts
on the most recent Sunday at or before `today - 7 * N` and ends on `today`:
the start is a Sunday, it is at or before `today - 7 * N`, every Sunday at or
before `today - 7 * N` is at or before it, and the visited date list runs
from the start to exactly `today`. -/
theorem rangeStart_is_previous_sunday (today : Int) (N : Nat) :
    getDay (rangeStart today N) = 0 ∧
    rangeStart today N ≤ today - 7 * N ∧
    (∀ u : Int, getDay u = 0 → u ≤ today - 7 * N → u ≤ rangeStart today N) ∧
    (dateRange (rangeStart today N) today).head? = some (rangeStart today N) ∧
    (dateRange (rangeStart today N) today).getLast? = some today := by
  have hrs := rangeStart_eq today N
  have hd : getDay (rangeStart today N) = 0 := by
    rw [hrs]; unfold getDay; omega
  have hle : rangeStart today N ≤ today - 7 * N := by
    rw [hrs]; omega
  have hmax : ∀ u : Int, getDay u = 0 → u ≤ today - 7 * N →
      u ≤ rangeStart today N := by
    intro u hu hule
    unfold getDay at hu
    rw [hrs]
    omega
  have hstart : rangeStart today N ≤ today := by rw [hrs]; omega
  have hlen : ∃ k : Nat, (today + 1 - rangeStart today N).toNat = k + 1 := by
    refine ⟨(today - rangeStart today N).toNat, ?_⟩
    omega
  rcases hlen with ⟨k, hk⟩
  refine ⟨hd, hle, hmax, ?_, ?_⟩
  · unfold dateRange
    rw [hk, dateRangeAux_head]
  · unfold dateRange
    rw [hk, dateRangeAux_getLast]
    congr 1
    omega

/-- Witness for C6: at `today = 10` (a Sunday: day 10 = 1970-01-11) and
`N = 1`, the theorem's maximality clause applied to the Sunday `u = 3`. -/
theorem rangeStart_is_previous_sunday_witness :
    (3 : Int) ≤ rangeStart 10 1 :=
  (rangeStart_is_previous_sunday 10 1).2.2.1 3 (by decide) (by decide)

/-- C1: In the chronological aggregation pass, a date with zero total minutes
that is strictly before today resets both the running streak counter and the
current streak to zero, while a zero-minute date that is today or later
leaves both unchanged. -/
theorem zero_day_resets_streaks_iff_past (t : Int) (m : Int → Nat)
    (p : Int → List (String × Nat)) (st : Stats) (ds : Int)
    (hzero : m ds = 0) :
    (ds < t →
      (statsStep t m p st ds).tempStreak = 0 ∧
      (statsStep t m p st ds).currentStreak = 0) ∧
    (t ≤ ds →
      (statsStep t m p st ds).tempStreak = st.tempStreak ∧
      (statsStep t m p st ds).currentStreak = st.currentStreak) := by
  constructor <;> intro h <;>
    simp [statsStep, hzero, upsertAll, show ¬ (0:Nat) < 0 by omega,
      show (ds < t) = (ds < t) from rfl]
  · simp [if_pos h]
  · simp [if_neg (show ¬ ds < t by omega)]

/-- Witness for C1: the theorem applied with today `t = 1` at the zero-minute
past date `ds = 0` and at the zero-minute date `ds = 1` (today itself). -/
theorem zero_day_resets_streaks_iff_past_witness :
    ((statsStep 1 (fun _ => 0) (fun _ => []) initStats 0).tempStreak = 0 ∧
     (statsStep 1 (fun _ => 0) (fun _ => []) initStats 0).currentStreak = 0) ∧
    ((statsStep 1 (fun _ => 0) (fun _ => []) initStats 1).tempStreak =
       initStats.tempStreak ∧
     (statsStep 1 (fun _ => 0) (fun _ => []) initStats 1).currentStreak =
       initStats.currentStreak) :=
  ⟨(zero_day_resets_streaks_iff_past 1 (fun _ => 0) (fun _ => []) initStats 0
      rfl).1 (by decide),
   (zero_day_resets_streaks_iff_past 1 (fun _ => 0) (fun _ => []) initStats 1
      rfl).2 (by decide)⟩

theorem statsStep_current_le_longest (t : Int) (m : Int → Nat)
    (p : Int → List (String × Nat)) (st : Stats) (ds : Int)
    (h : st.currentStreak ≤ st.longestStreak) :
    (statsStep t m p st ds).currentStreak ≤
      (statsStep t m p st ds).longestStreak := by
  unfold statsStep
  dsimp only
  split_ifs <;> simp_all <;> omega

theorem foldl_statsStep_current_le_longest (t : Int) (m : Int → Nat)
    (p : Int → List (String × Nat)) (l : List Int) (st : Stats)
    (h : st.currentStreak ≤ st.longestStreak) :
    (l.foldl (statsStep t m p) st).currentStreak ≤
      (l.foldl (statsStep t m p) st).longestStreak := by
  induction l generalizing st with
  | nil => exact h
  | cons d ds ih =>
    exact ih _ (statsStep_current_le_longest t m p st d h)

/-- C4: At every point of the chronological aggregation pass — after any
prefix of the date list — and in particular in the final aggregates, the
longest streak is at least the current streak, for every date range and every
assignment of per-day minutes and projects. -/
theorem longestStreak_ge_currentStreak (t : Int) (m : Int → Nat)
    (p : Int → List (String × Nat)) :
    (∀ (dates : List Int) (k : Nat),
      ((dates.take k).foldl (statsStep t m p) initStats).currentStreak ≤
        ((dates.take k).foldl (statsStep t m p) initStats).longestStreak) ∧
    (∀ start : Int,
      (runStats t m p start).currentStreak ≤
        (runStats t m p start).longestStreak) :=
  ⟨fun dates k =>
    foldl_statsStep_current_le_longest t m p (dates.take k) initStats
      (Nat.le_refl 0),
   fun start =>
    foldl_statsStep_current_le_longest t m p (dateRange start t) initStats
      (Nat.le_refl 0)⟩

theorem parseAux_map_date (ls : List Line) :
    ∀ cur : Option Session,
      (parseAux cur ls).map Session.date =
        cur.toList.map Session.date ++ headerDates ls := by
  induction ls with
  | nil => intro cur; cases cur <;> simp [parseAux, headerDates]
  | cons l ls ih =>
    intro cur
    cases l with
    | header d => cases cur <;> simp [parseAux, headerDates, ih]
    | duration n =>
      cases cur with
      | none => simpa [parseAux, headerDates] using ih none
      | some c =>
        simpa [parseAux, headerDates] using ih (some { c with durationMin := n })
    | whereLine p =>
      cases cur with
      | none => simpa [parseAux, headerDates] using ih none
      | some c =>
        simpa [parseAux, headerDates] using ih (some { c with project := some p.trim })
    | other => simpa [parseAux, headerDates] using ih cur

theorem headerDates_length (ls : List Line) :
    (headerDates ls).length = (ls.filter Line.isHeader).length := by
  induction ls with
  | nil => rfl
  | cons l ls ih =>
    cases l <;> simp [headerDates, Line.isHeader, List.filter_cons] at ih ⊢ <;>
      simpa [headerDates] using ih

theorem parseAux_ignores_leading (pre : List Line)
    (h : ∀ l ∈ pre, l.isHeader = false) (post : List Line) :
    parseAux none (pre ++ post) = parseAux none post := by
  induction pre with
  | nil => rfl
  | cons l pre ih =>
    have hl := h l (by simp)
    have h' : ∀ l' ∈ pre, l'.isHeader = false := fun l' hm => h l' (by simp [hm])
    cases l with
    | header d => simp [Line.isHeader] at hl
    | duration n => simpa [parseAux] using ih h'
    | whereLine p => simpa [parseAux] using ih h'
    | other => simpa [parseAux] using ih h'

theorem parseAux_drop_other (xs : List Line) :
    ∀ (cur : Option Session) (ys : List Line),
      parseAux cur (xs ++ Line.other :: ys) = parseAux cur (xs ++ ys) := by
  induction xs with
  | nil => intro cur ys; rfl
  | cons l xs ih =>
    intro cur ys
    cases l <;> cases cur <;> simp [parseAux, ih]

/-- C5: The parser returns exactly one session record per session-header
line, in input order (witnessed by the sequence of stored dates and the
count), lines before the first header — duration or location lines included —
leave the result unchanged, and a line matching no marker pattern anywhere
leaves the result unchanged. -/
theorem parseProofLog_one_session_per_header (ls : List Line) :
    (parseProofLog ls).map Session.date = headerDates ls ∧
    (parseProofLog ls).length = (ls.filter Line.isHeader).length ∧
    (∀ pre post : List Line, (∀ l ∈ pre, l.isHeader = false) →
      parseProofLog (pre ++ post) = parseProofLog post) ∧
    (∀ xs ys : List Line,
      parseProofLog (xs ++ Line.other :: ys) = parseProofLog (xs ++ ys)) := by
  refine ⟨?_, ?_, ?_, ?_⟩
  · simpa using parseAux_map_date ls none
  · have h := congrArg List.length (parseAux_map_date ls none)
    simpa [headerDates_length ls] using h
  · intro pre post h
    exact parseAux_ignores_leading pre h post
  · intro xs ys
    exact parseAux_drop_other xs none ys

/-- Witness for C5: the leading-lines clause of the theorem applied at a
concrete duration line occurring before the only header. -/
theorem parseProofLog_one_session_per_header_witness :
    parseProofLog ([Line.duration 5] ++ [Line.header "2024-03-04"]) =
      parseProofLog [Line.header "2024-03-04"] :=
  (parseProofLog_one_session_per_header []).2.2.1
    [Line.duration 5] [Line.header "2024-03-04"] (by decide)

theorem addSession_other (ds : Int) (s : Session) (st : ScanState) (x : Int)
    (hx : x ≠ ds) :
    (addSession ds s st).minutesByDate x = st.minutesByDate x ∧
    (addSession ds s st).projectsByDate x = st.projectsByDate x := by
  unfold addSession
  cases s.project <;> simp [hx]

theorem addSession_at (ds : Int) (s : Session) (st : ScanState) :
    (addSession ds s st).minutesByDate ds =
      st.minutesByDate ds + s.durationMin := by
  unfold addSession
  cases s.project <;> simp

theorem processSessions_other (ds : Int) (sess : List Session) :
    ∀ (st : ScanState) (x : Int), x ≠ ds →
      (processSessions ds st sess).1.minutesByDate x = st.minutesByDate x ∧
      (processSessions ds st sess).1.projectsByDate x = st.projectsByDate x := by
  induction sess with
  | nil => intro st x _; exact ⟨rfl, rfl⟩
  | cons s rest ih =>
    intro st x hx
    by_cases h : s.durationMin = 0
    · simpa [processSessions, h] using ih st x hx
    · have h1 := ih (addSession ds s st) x hx
      have h2 := addSession_other ds s st x hx
      simp only [processSessions, if_neg h]
      exact ⟨h1.1.trans h2.1, h1.2.trans h2.2⟩

theorem processSessions_at (ds : Int) (sess : List Session) :
    ∀ st : ScanState,
      (processSessions ds st sess).1.minutesByDate ds =
        st.minutesByDate ds + sumDurations sess := by
  induction sess with
  | nil => intro st; simp [processSessions, sumDurations]
  | cons s rest ih =>
    intro st
    by_cases h : s.durationMin = 0
    · simp only [processSessions, if_pos h]
      rw [ih st]
      simp [sumDurations, h]
    · simp only [processSessions, if_neg h]
      rw [ih (addSession ds s st), addSession_at]
      simp [sumDurations]
      omega

theorem scanLoop_skips_missing (fs : Int → FileStatus) (t D : Int)
    (hD : fs D = .absent ∨ fs D = .unreadable) :
    ∀ (d : Int) (st : ScanState),
      (scanLoop fs t d st).minutesByDate D = st.minutesByDate D ∧
      (scanLoop fs t d st).projectsByDate D = st.projectsByDate D := by
  intro d st
  induction d, st using scanLoop.induct fs t with
  | case1 d st hd hfs ih =>
    rw [scanLoop]
    simpa [hd, hfs] using ih
  | case2 d st hd hfs ih =>
    rw [scanLoop]
    simpa [hd, hfs] using ih
  | case3 d st hd lines hcont r ih =>
    have hne : D ≠ d := by
      rintro rfl
      rcases hD with h | h <;> rw [hcont] at h <;> cases h
    rw [scanLoop]
    simp only [hd, hcont, dif_pos]
    obtain ⟨ih1, ih2⟩ := ih
    obtain ⟨p1, p2⟩ :=
      processSessions_other d (parseProofLog lines) st D hne
    exact ⟨ih1.trans p1, ih2.trans p2⟩
  | case4 d st hd =>
    rw [scanLoop]
    simp [hd]

theorem scanLoop_congr (fs fs' : Int → FileStatus) (t : Int)
    (h : ∀ x : Int, fs x = fs' x ∨
      ((fs x = .absent ∨ fs x = .unreadable) ∧
       (fs' x = .absent ∨ fs' x = .unreadable))) :
    ∀ (d : Int) (st : ScanState),
      scanLoop fs t d st = scanLoop fs' t d st := by
  intro d st
  induction d, st using scanLoop.induct fs t with
  | case1 d st hd hfs ih =>
    have hstep : scanLoop fs' t d st = scanLoop fs' t (d + 1) st := by
      rcases h d with he | ⟨_, hb⟩
      · conv_lhs => rw [scanLoop]
        rw [← he, hfs]
        simp [hd]
      · rcases hb with hb | hb
        · conv_lhs => rw [scanLoop]
          rw [hb]
          simp [hd]
        · conv_lhs => rw [scanLoop]
          rw [hb]
          simp [hd]
    conv_lhs => rw [scanLoop]
    rw [hfs]
    simp only [hd, dif_pos]
    rw [hstep]
    exact ih
  | case2 d st hd hfs ih =>
    have hstep : scanLoop fs' t d st = scanLoop fs' t (d + 1) st := by
      rcases h d with he | ⟨_, hb⟩
      · conv_lhs => rw [scanLoop]
        rw [← he, hfs]
        simp [hd]
      · rcases hb with hb | hb
        · conv_lhs => rw [scanLoop]
          rw [hb]
          simp [hd]
        · conv_lhs => rw [scanLoop]
          rw [hb]
          simp [hd]
    conv_lhs => rw [scanLoop]
    rw [hfs]
    simp only [hd, dif_pos]
    rw [hstep]
    exact ih
  | case3 d st hd lines hcont r ih =>
    have he : fs' d = FileStatus.content lines := by
      rcases h d with he | ⟨ha, _⟩
      · rw [← he, hcont]
      · rcases ha with ha | ha <;> rw [hcont] at ha <;> cases ha
    conv_lhs => rw [scanLoop]
    conv_rhs => rw [scanLoop]
    rw [hcont, he]
    simp only [hd, dif_pos]
    exact ih
  | case4 d st hd =>
    conv_lhs => rw [scanLoop]
    conv_rhs => rw [scanLoop]
    simp [hd]

theorem statsStep_activeDays_of_zero (t' : Int) (m : Int → Nat)
    (p' : Int → List (String × Nat)) (st : Stats) (ds : Int)
    (h : m ds = 0) :
    (statsStep t' m p' st ds).activeDays = st.activeDays := by
  unfold statsStep
  rw [h]
  norm_num
  split_ifs <;> rfl

/-- C9: A date whose log file is missing or unreadable contributes a daily
total of 0, counts as inactive in the aggregation pass, and the whole scan
result is exactly what it would be were the unreadable file absent. -/
theorem missing_file_zero_day (fs : Int → FileStatus) (t start D t' : Int)
    (p' : Int → List (String × Nat))
    (hD : fs D = .absent ∨ fs D = .unreadable) :
    (scanRange fs t start).minutesByDate D = 0 ∧
    (∀ st : Stats,
      (statsStep t' (scanRange fs t start).minutesByDate p' st D).activeDays =
        st.activeDays) ∧
    scanRange fs t start = scanRange (updateFs fs D .absent) t start := by
  have hzero : (scanRange fs t start).minutesByDate D = 0 :=
    (scanLoop_skips_missing fs t D hD start initScan).1
  refine ⟨hzero, fun st => statsStep_activeDays_of_zero t' _ p' st D hzero, ?_⟩
  unfold scanRange
  apply scanLoop_congr
  intro x
  by_cases hx : x = D
  · subst hx
    exact Or.inr ⟨hD, Or.inl (by simp [updateFs])⟩
  · exact Or.inl (by simp [updateFs, hx])

/-- Witness for C9: the theorem applied to a filesystem whose only file, for
day 0, is unreadable. -/
theorem missing_file_zero_day_witness :
    (scanRange (fun d => if d = 0 then FileStatus.unreadable
        else FileStatus.absent) 0 0).minutesByDate 0 = 0 ∧
    (∀ st : Stats,
      (statsStep 0 (scanRange (fun d => if d = 0 then FileStatus.unreadable
          else FileStatus.absent) 0 0).minutesByDate (fun _ => []) st
        0).activeDays = st.activeDays) ∧
    scanRange (fun d => if d = 0 then FileStatus.unreadable
        else FileStatus.absent) 0 0 =
      scanRange (updateFs (fun d => if d = 0 then FileStatus.unreadable
        else FileStatus.absent) 0 FileStatus.absent) 0 0 :=
  missing_file_zero_day _ 0 0 0 0 (fun _ => []) (Or.inr (by simp))

theorem parseAux_mapLine (g : String → String) (ls : List Line) :
    ∀ cur : Option Session,
      parseAux (cur.map (mapSessionDate g)) (ls.map (mapLine g)) =
        (parseAux cur ls).map (mapSessionDate g) := by
  induction ls with
  | nil => intro cur; cases cur <;> rfl
  | cons l ls ih =>
    intro cur
    cases l with
    | header d =>
      cases cur with
      | none => simpa [parseAux, mapLine] using ih (some ⟨d, 0, none⟩)
      | some c =>
        simpa [parseAux, mapLine] using ih (some ⟨d, 0, none⟩)
    | duration n =>
      cases cur with
      | none => simpa [parseAux, mapLine] using ih none
      | some c =>
        simpa [parseAux, mapLine, mapSessionDate] using
          ih (some { c with durationMin := n })
    | whereLine p =>
      cases cur with
      | none => simpa [parseAux, mapLine] using ih none
      | some c =>
        simpa [parseAux, mapLine, mapSessionDate] using
          ih (some { c with project := some p.trim })
    | other => simpa [parseAux, mapLine] using ih cur

theorem parseProofLog_mapLine (g : String → String) (ls : List Line) :
    parseProofLog (ls.map (mapLine g)) =
      (parseProofLog ls).map (mapSessionDate g) := by
  simpa using parseAux_mapLine g ls none

theorem addSession_map_date (g : String → String) (ds : Int) (s : Session)
    (st : ScanState) :
    addSession ds (mapSessionDate g s) st = addSession ds s st := rfl

theorem processSessions_map_date (g : String → String) (ds : Int)
    (sess : List Session) :
    ∀ st : ScanState,
      processSessions ds st (sess.map (mapSessionDate g)) =
        processSessions ds st sess := by
  induction sess with
  | nil => intro st; rfl
  | cons s rest ih =>
    intro st
    by_cases h : s.durationMin = 0
    · simp only [List.map_cons, processSessions,
        show (mapSessionDate g s).durationMin = s.durationMin from rfl,
        if_pos h, ih st]
    · simp only [List.map_cons, processSessions,
        show (mapSessionDate g s).durationMin = s.durationMin from rfl,
        if_neg h, addSession_map_date, ih (addSession ds s st)]

theorem scanLoop_mapFileDates (g : String → String)
    (fs : Int → FileStatus) (t : Int) :
    ∀ (d : Int) (st : ScanState),
      scanLoop (fun y => mapFileDates g (fs y)) t d st = scanLoop fs t d st := by
  intro d st
  induction d, st using scanLoop.induct fs t with
  | case1 d st hd hfs ih =>
    conv_lhs => rw [scanLoop]
    conv_rhs => rw [scanLoop]
    rw [hfs]
    simp only [mapFileDates, hd, dif_pos]
    exact ih
  | case2 d st hd hfs ih =>
    conv_lhs => rw [scanLoop]
    conv_rhs => rw [scanLoop]
    rw [hfs]
    simp only [mapFileDates, hd, dif_pos]
    exact ih
  | case3 d st hd lines hcont r ih =>
    conv_lhs => rw [scanLoop]
    conv_rhs => rw [scanLoop]
    rw [hcont]
    simp only [mapFileDates, hd, dif_pos]
    rw [parseProofLog_mapLine, processSessions_map_date]
    exact ih
  | case4 d st hd =>
    conv_lhs => rw [scanLoop]
    conv_rhs => rw [scanLoop]
    simp [hd]

/-- C10: The scan credits every parsed session's minutes and project to the
date of the file being scanned, never to the session's own header date:
rewriting every header date in every file leaves the whole scan unchanged,
the minutes a file's sessions add all land on the scanned date, and no other
date's totals or projects are touched. -/
theorem minutes_credited_to_filename_date (g : String → String)
    (fs : Int → FileStatus) (t ds x : Int) (sess : List Session)
    (st : ScanState) (hx : x ≠ ds) :
    (∀ start : Int,
      scanRange (fun y => mapFileDates g (fs y)) t start =
        scanRange fs t start) ∧
    (processSessions ds st sess).1.minutesByDate ds =
      st.minutesByDate ds + sumDurations sess ∧
    (processSessions ds st sess).1.minutesByDate x = st.minutesByDate x ∧
    (processSessions ds st sess).1.projectsByDate x = st.projectsByDate x := by
  refine ⟨fun start => scanLoop_mapFileDates g fs t start initScan, ?_, ?_, ?_⟩
  · exact processSessions_at ds sess st
  · exact (processSessions_other ds sess st x hx).1
  · exact (processSessions_other ds sess st x hx).2

/-- Witness for C10: the theorem applied to a single 90-minute session whose
header date string differs from the scanned day 0; the minutes land on day 0
and day 1 is untouched. -/
theorem minutes_credited_to_filename_date_witness :
    (∀ start : Int,
      scanRange (fun y => mapFileDates (fun _ => "2030-12-31")
          ((fun _ => FileStatus.absent) y)) 5 start =
        scanRange (fun _ => FileStatus.absent) 5 start) ∧
    (processSessions 0 initScan
        [⟨"2026-02-02", 90, some "alpha"⟩]).1.minutesByDate 0 =
      initScan.minutesByDate 0 + sumDurations [⟨"2026-02-02", 90, some "alpha"⟩] ∧
    (processSessions 0 initScan
        [⟨"2026-02-02", 90, some "alpha"⟩]).1.minutesByDate 1 =
      initScan.minutesByDate 1 ∧
    (processSessions 0 initScan
        [⟨"2026-02-02", 90, some "alpha"⟩]).1.projectsByDate 1 =
      initScan.projectsByDate 1 :=
  minutes_credited_to_filename_date (fun _ => "2030-12-31")
    (fun _ => FileStatus.absent) 5 0 1 [⟨"2026-02-02", 90, some "alpha"⟩]
    initScan (by decide)

/-- C2 (code bug at cli.mjs:134): inside the per-session loop a zero-duration
session runs `d = addDays(d, 1)` before `continue`, advancing the outer date
cursor, so the following day's file is never scanned.  Over a two-day range,
with day 0 holding one zero-duration session and day 1 holding a 60-minute
session, day 1 totals 0; with the zero-duration block removed from day 0's
file, day 1 totals 60 — so the zero-duration session does perturb other
aggregates, contradicting the claim. -/
theorem zero_duration_session_skips_next_day :
    (scanRange (fun d =>
        if d = 0 then FileStatus.content [Line.header "2026-01-01"]
        else if d = 1 then
          FileStatus.content [Line.header "2026-01-02", Line.duration 60]
        else FileStatus.absent) 1 0).minutesByDate 1 = 0 ∧
    (scanRange (fun d =>
        if d = 0 then FileStatus.content []
        else if d = 1 then
          FileStatus.content [Line.header "2026-01-02", Line.duration 60]
        else FileStatus.absent) 1 0).minutesByDate 1 = 60 := by
  constructor
  · unfold scanRange
    rw [scanLoop]
    norm_num [parseProofLog, parseAux, processSessions]
    rw [scanLoop]
    norm_num [initScan]
  · unfold scanRange
    rw [scanLoop]
    norm_num [parseProofLog, parseAux, processSessions]
    rw [scanLoop]
    norm_num [parseProofLog, parseAux, processSessions, addSession]
    rw [scanLoop]
    norm_num [initScan]

theorem upsert_keys (l : List (String × Nat)) (k : String) (v : Nat) :
    (upsert l k v).map Prod.fst =
      if k ∈ l.map Prod.fst then l.map Prod.fst
      else l.map Prod.fst ++ [k] := by
  induction l with
  | nil => simp [upsert]
  | cons e rest ih =>
    obtain ⟨k', v'⟩ := e
    by_cases h : k' = k
    · subst h
      simp [upsert]
    · simp only [upsert, if_neg h, List.map_cons, ih]
      by_cases hm : k ∈ rest.map Prod.fst
      · rw [if_pos hm, if_pos (List.mem_cons_of_mem k' hm)]
      · have hnotc : k ∉ k' :: rest.map Prod.fst := by
          simp only [List.mem_cons, hm, or_false]
          exact fun he => h he.symm
        rw [if_neg hm, if_neg hnotc, List.cons_append]

theorem upsertAll_keys (es : List (String × Nat)) :
    ∀ l : List (String × Nat),
      (upsertAll l es).map Prod.fst =
        (es.map Prod.fst).foldl
          (fun acc k => if k ∈ acc then acc else acc ++ [k])
          (l.map Prod.fst) := by
  induction es with
  | nil => intro l; rfl
  | cons e rest ih =>
    intro l
    have h1 : upsertAll l (e :: rest) = upsertAll (upsert l e.1 e.2) rest := rfl
    rw [h1, ih (upsert l e.1 e.2), upsert_keys]
    simp [List.foldl_cons]

theorem statsStep_allProjects (t : Int) (m : Int → Nat)
    (p : Int → List (String × Nat)) (st : Stats) (ds : Int) :
    (statsStep t m p st ds).allProjects =
      upsertAll st.allProjects (entriesJS (p ds)) := by
  unfold statsStep
  dsimp only
  split_ifs <;> rfl

theorem foldl_statsStep_keys (t : Int) (m : Int → Nat)
    (p : Int → List (String × Nat)) (dates : List Int) :
    ∀ st : Stats,
      ((dates.foldl (statsStep t m p) st).allProjects).map Prod.fst =
        (projSeq dates p).foldl
          (fun acc k => if k ∈ acc then acc else acc ++ [k])
          (st.allProjects.map Prod.fst) := by
  induction dates with
  | nil => intro st; rfl
  | cons d rest ih =>
    intro st
    simp only [List.foldl_cons]
    rw [ih (statsStep t m p st d), statsStep_allProjects, upsertAll_keys]
    rw [show projSeq (d :: rest) p =
        (entriesJS (p d)).map Prod.fst ++ projSeq rest p from by simp [projSeq]]
    rw [List.foldl_append]

theorem sort_head_first_max (l : List (String × Nat)) (hne : l ≠ []) :
    ∃ pv l1 l2,
      (sortByMinutesDesc l).head? = some pv ∧ l = l1 ++ pv :: l2 ∧
      (∀ q ∈ l1, q.2 < pv.2) ∧ (∀ q ∈ l, q.2 ≤ pv.2) := by
  induction l with
  | nil => exact absurd rfl hne
  | cons x xs ih =>
    cases xs with
    | nil =>
      refine ⟨x, [], [], rfl, by simp, by simp, ?_⟩
      intro q hq
      simp at hq
      simp [hq]
    | cons y ys =>
      obtain ⟨pv, l1, l2, hhead, hdec, hl1, hall⟩ := ih (by simp)
      have hsort : sortByMinutesDesc (x :: y :: ys) =
          insertDesc x (sortByMinutesDesc (y :: ys)) := rfl
      rcases hs : sortByMinutesDesc (y :: ys) with _ | ⟨m, s'⟩
      · rw [hs] at hhead
        simp at hhead
      · rw [hs] at hhead
        simp only [List.head?_cons, Option.some.injEq] at hhead
        subst hhead
        by_cases hx : x.2 < m.2
        · refine ⟨m, x :: l1, l2, ?_, ?_, ?_, ?_⟩
          · rw [hsort, hs]
            simp [insertDesc, hx]
          · rw [List.cons_append, ← hdec]
          · intro q hq
            rcases List.mem_cons.mp hq with h | h
            · subst h; exact hx
            · exact hl1 q h
          · intro q hq
            rcases List.mem_cons.mp hq with h | h
            · subst h; exact le_of_lt hx
            · exact hall q h
        · refine ⟨x, [], y :: ys, ?_, rfl, by simp, ?_⟩
          · rw [hsort, hs]
            simp [insertDesc, hx]
          · intro q hq
            rcases List.mem_cons.mp hq with h | h
            · subst h; exact le_refl _
            · have := hall q h
              omega

theorem mem_insertAscIdx (x y : String × Nat) (l : List (String × Nat)) :
    y ∈ insertAscIdx x l ↔ y = x ∨ y ∈ l := by
  induction l with
  | nil => simp [insertAscIdx]
  | cons z zs ih =>
    by_cases h : arrayIndexVal z.1 < arrayIndexVal x.1
    · simp only [insertAscIdx, if_pos h, List.mem_cons, ih]
      tauto
    · simp only [insertAscIdx, if_neg h, List.mem_cons]

theorem mem_sortAscIdx (y : String × Nat) (l : List (String × Nat)) :
    y ∈ sortAscIdx l ↔ y ∈ l := by
  induction l with
  | nil => simp [sortAscIdx]
  | cons x xs ih => simp [sortAscIdx, mem_insertAscIdx, ih]

theorem mem_entriesJS (y : String × Nat) (l : List (String × Nat)) :
    y ∈ entriesJS l ↔ y ∈ l := by
  simp only [entriesJS, List.mem_append, mem_sortAscIdx, List.mem_filter]
  by_cases h : isArrayIndex y.1 <;> simp [h]

theorem entriesJS_ne_nil (l : List (String × Nat)) (h : l ≠ []) :
    entriesJS l ≠ [] := by
  obtain ⟨y, hy⟩ := List.exists_mem_of_ne_nil l h
  exact List.ne_nil_of_mem ((mem_entriesJS y l).mpr hy)

theorem entriesJS_of_no_index (l : List (String × Nat))
    (h : ∀ e ∈ l, isArrayIndex e.1 = false) : entriesJS l = l := by
  have h1 : (l.filter fun e => isArrayIndex e.1) = [] := by
    rw [List.filter_eq_nil_iff]
    intro e he
    simp [h e he]
  have h2 : (l.filter fun e => !isArrayIndex e.1) = l := by
    rw [List.filter_eq_self]
    intro e he
    simp [h e he]
  rw [entriesJS, h1, h2]
  rfl

/-- C8 counterexample: project "zzz" is encountered on day 0, strictly
before the tied project "5" (day 1), so the backing store lists "zzz"
first; but `Object.entries` enumerates the array-index key "5" ahead of
"zzz", so the stable sort reports "5" — not the first-encountered project. -/
theorem topProject_ties_to_numeric_key :
    (runStats 1 (fun _ => 0)
        (fun ds => if ds = 0 then [("zzz", 5)]
                   else if ds = 1 then [("5", 5)] else []) 0).allProjects =
      [("zzz", 5), ("5", 5)] ∧
    topProject ((runStats 1 (fun _ => 0)
        (fun ds => if ds = 0 then [("zzz", 5)]
                   else if ds = 1 then [("5", 5)] else []) 0).allProjects) =
      some ("5", 5) := by
  decide

/-- C8 (amended): the reported top project has maximal total minutes in the
aggregated dictionary, and every entry enumerated before it by
`Object.entries` has strictly fewer minutes, so a tie goes to the earliest
entry in enumeration order: array-index labels first in ascending numeric
order, then the remaining labels in the backing store's order, which the
aggregation builds in first-encounter chronological order; in particular,
when no label is an array index, the enumeration is exactly that
first-encounter order and the tie goes to the first-encountered project. -/
theorem topProject_enumeration_max (t : Int) (m : Int → Nat)
    (p : Int → List (String × Nat)) (start : Int)
    (hne : (runStats t m p start).allProjects ≠ []) :
    (runStats t m p start).allProjects.map Prod.fst =
      firstOccurs (projSeq (dateRange start t) p) ∧
    ((∀ e ∈ (runStats t m p start).allProjects, isArrayIndex e.1 = false) →
      entriesJS ((runStats t m p start).allProjects) =
        (runStats t m p start).allProjects) ∧
    ∃ pv l1 l2,
      topProject ((runStats t m p start).allProjects) = some pv ∧
      entriesJS ((runStats t m p start).allProjects) = l1 ++ pv :: l2 ∧
      (∀ q ∈ l1, q.2 < pv.2) ∧
      pv ∈ (runStats t m p start).allProjects ∧
      (∀ q ∈ (runStats t m p start).allProjects, q.2 ≤ pv.2) := by
  refine ⟨?_, entriesJS_of_no_index _, ?_⟩
  · have h := foldl_statsStep_keys t m p (dateRange start t) initStats
    simpa [runStats, firstOccurs, initStats] using h
  · obtain ⟨pv, l1, l2, hhead, hdec, hl1, hall⟩ :=
      sort_head_first_max (entriesJS ((runStats t m p start).allProjects))
        (entriesJS_ne_nil _ hne)
    refine ⟨pv, l1, l2, hhead, hdec, hl1, ?_, ?_⟩
    · exact (mem_entriesJS pv _).mp (by rw [hdec]; simp)
    · intro q hq
      exact hall q ((mem_entriesJS q _).mpr hq)

/-- Witness for C8: two non-numeric projects tied at 5 minutes, "alpha"
encountered first; the theorem applied at this run, its hypothesis
discharged by evaluation. -/
theorem topProject_enumeration_max_witness :
    (runStats 0 (fun _ => 0)
        (fun _ => [("alpha", 5), ("beta", 5)]) 0).allProjects.map Prod.fst =
      firstOccurs (projSeq (dateRange 0 0)
        (fun _ => [("alpha", 5), ("beta", 5)])) ∧
    ((∀ e ∈ (runStats 0 (fun _ => 0)
        (fun _ => [("alpha", 5), ("beta", 5)]) 0).allProjects,
        isArrayIndex e.1 = false) →
      entriesJS ((runStats 0 (fun _ => 0)
          (fun _ => [("alpha", 5), ("beta", 5)]) 0).allProjects) =
        (runStats 0 (fun _ => 0)
          (fun _ => [("alpha", 5), ("beta", 5)]) 0).allProjects) ∧
    ∃ pv l1 l2,
      topProject ((runStats 0 (fun _ => 0)
          (fun _ => [("alpha", 5), ("beta", 5)]) 0).allProjects) = some pv ∧
      entriesJS ((runStats 0 (fun _ => 0)
          (fun _ => [("alpha", 5), ("beta", 5)]) 0).allProjects) =
        l1 ++ pv :: l2 ∧
      (∀ q ∈ l1, q.2 < pv.2) ∧
      pv ∈ (runStats 0 (fun _ => 0)
          (fun _ => [("alpha", 5), ("beta", 5)]) 0).allProjects ∧
      (∀ q ∈ (runStats 0 (fun _ => 0)
          (fun _ => [("alpha", 5), ("beta", 5)]) 0).allProjects,
        q.2 ≤ pv.2) :=
  topProject_enumeration_max 0 (fun _ => 0)
    (fun _ => [("alpha", 5), ("beta", 5)]) 0 (by decide)

theorem cellsInner_length (t : Int) (m : Int → Nat) :
    ∀ (k : Nat) (c : Int),
      (cellsInner t m c k).length = min k (t + 1 - c).toNat := by
  intro k
  induction k with
  | zero => intro c; simp [cellsInner]
  | succ n ih =>
    intro c
    by_cases h : t < c
    · rw [show cellsInner t m c (n + 1) = cellsInner t m (c + 1) n from
        by simp [cellsInner, h]]
      rw [ih (c + 1)]
      omega
    · rw [show cellsInner t m c (n + 1) =
          (c, getLevel (m c)) :: cellsInner t m (c + 1) n from
        by simp [cellsInner, h]]
      simp only [List.length_cons, ih (c + 1)]
      omega

theorem cellsLoop_length (t : Int) (m : Int → Nat) :
    ∀ (n : Nat) (c : Int), (t + 1 - c).toNat = n →
      (cellsLoop t m c).length = n := by
  intro n
  induction n using Nat.strong_induction_on with
  | _ n ih =>
    intro c hc
    rw [cellsLoop]
    split_ifs with h
    · rw [List.length_append, cellsInner_length]
      have h1 : 0 < n := by omega
      rw [ih (n - 7) (by omega) (c + 7) (by omega)]
      omega
    · simp only [List.length_nil]
      omega

theorem scanLoop_all_absent (t : Int) :
    ∀ (d : Int) (st : ScanState),
      scanLoop (fun _ => FileStatus.absent) t d st = st := by
  intro d st
  induction d, st using scanLoop.induct (fun _ => FileStatus.absent) t with
  | case1 d st hd hfs ih =>
    rw [scanLoop]
    simpa [hd] using ih
  | case2 d st hd hfs ih => simp at hfs
  | case3 d st hd lines hcont r ih => simp at hcont
  | case4 d st hd =>
    rw [scanLoop]
    simp [hd]

theorem statsStep_zero_fun (t ds : Int) (st : Stats) :
    statsStep t (fun _ => 0) (fun _ => []) st ds =
      if ds < t then { st with tempStreak := 0, currentStreak := 0 }
      else st := by
  unfold statsStep upsertAll
  dsimp only
  norm_num
  rfl

theorem foldl_statsStep_zero (t : Int) (dates : List Int) :
    ∀ st : Stats, st.totalMinutes = 0 → st.activeDays = 0 →
      st.longestStreak = 0 → st.currentStreak = 0 → st.tempStreak = 0 →
      ((dates.foldl (statsStep t (fun _ => 0) (fun _ => [])) st).totalMinutes = 0 ∧
       (dates.foldl (statsStep t (fun _ => 0) (fun _ => [])) st).activeDays = 0 ∧
       (dates.foldl (statsStep t (fun _ => 0) (fun _ => [])) st).longestStreak = 0 ∧
       (dates.foldl (statsStep t (fun _ => 0) (fun _ => [])) st).currentStreak = 0 ∧
       (dates.foldl (statsStep t (fun _ => 0) (fun _ => [])) st).tempStreak = 0) := by
  induction dates with
  | nil => intro st h1 h2 h3 h4 h5; exact ⟨h1, h2, h3, h4, h5⟩
  | cons d rest ih =>
    intro st h1 h2 h3 h4 h5
    simp only [List.foldl_cons]
    rw [statsStep_zero_fun]
    split_ifs with hd
    · exact ih _ (by simp [h1]) (by simp [h2]) (by simp [h3]) (by simp) (by simp)
    · exact ih _ h1 h2 h3 h4 h5

/-- C3 (amended): with the week count set to 1 and no log file present for
any date, total minutes, active days, longest streak and current streak are
all 0, and the rendered grid contains exactly `weekday(today) + 8` day cells
— one per day from the range start (the Sunday at or before today − 7)
through today — i.e. between 8 and 14 cells, not 7. -/
theorem one_week_no_files_aggregates (t : Int) :
    (runPipeline (fun _ => FileStatus.absent) t 1).totalMinutes = 0 ∧
    (runPipeline (fun _ => FileStatus.absent) t 1).activeDays = 0 ∧
    (runPipeline (fun _ => FileStatus.absent) t 1).longestStreak = 0 ∧
    (runPipeline (fun _ => FileStatus.absent) t 1).currentStreak = 0 ∧
    (gridCells (fun _ => FileStatus.absent) t 1).length =
      (getDay t).toNat + 8 := by
  have hscan : scanRange (fun _ => FileStatus.absent) t (rangeStart t 1) =
      initScan :=
    scanLoop_all_absent t (rangeStart t 1) initScan
  have hlen : (gridCells (fun _ => FileStatus.absent) t 1).length =
      (getDay t).toNat + 8 := by
    unfold gridCells
    rw [hscan]
    rw [cellsLoop_length t initScan.minutesByDate
      (t + 1 - rangeStart t 1).toNat (rangeStart t 1) rfl]
    rw [rangeStart_eq]
    unfold getDay
    omega
  have hstats := foldl_statsStep_zero t (dateRange (rangeStart t 1) t)
    initStats rfl rfl rfl rfl rfl
  have hpipe : runPipeline (fun _ => FileStatus.absent) t 1 =
      (dateRange (rangeStart t 1) t).foldl
        (statsStep t (fun _ => 0) (fun _ => [])) initStats := by
    simp only [runPipeline]
    rw [hscan]
    rfl
  rw [hpipe]
  exact ⟨hstats.1, hstats.2.1, hstats.2.2.1, hstats.2.2.2.1, hlen⟩

/-- C3 counterexample: at `today = 3` (1970-01-04, a Sunday) with week count
1 and no files at all, the rendered grid has 8 day cells, not 7. -/
theorem one_week_grid_not_seven_cells :
    (gridCells (fun _ => FileStatus.absent) 3 1).length ≠ 7 := by
  unfold gridCells
  rw [show scanRange (fun _ => FileStatus.absent) 3 (rangeStart 3 1) = initScan
    from scanLoop_all_absent 3 (rangeStart 3 1) initScan]
  rw [cellsLoop_length 3 initScan.minutesByDate 8 (rangeStart 3 1) (by decide)]
  decide

end CcHeatmap
